import Mathlib

/-!
# LockBox backend: shallow embedding and verification

Shallow embedding of `src/app/main.py` (FastAPI service "LockBox API"):
two in-process mappings (`GAMES`, `PICKS`) keyed by string ids, and four
handlers (`health`, `picks_today`, `games_today`, `ingest_upsert`).

Python dictionaries are embedded as association lists (`StrMap`) whose
insert operation updates an existing key in place (preserving position)
and appends a fresh key at the end — exactly the insertion-order
semantics of a Python `dict`.  Handlers are state-passing functions on
`AppState`; the one fallible handler (`ingest_upsert`, which raises
`HTTPException(401)` on a bad secret) returns `Except`.  Python floats
are modelled as `Rat` (the program performs no arithmetic on them, only
storage), Python ints as `Int`.
-/

namespace LockBox

/-- `class Pick(BaseModel)` from `main.py`, with the declared field
defaults (`tier="A"`, `hit_prob=0.55`, optional fields `None`,
`rationale=[]`). -/
structure Pick where
  id : String
  league : String
  game_id : String
  market : String
  selection : String
  posted_line : Option Rat := none
  posted_odds : Option Int := none
  tier : String := "A"
  hit_prob : Rat := 11/20
  play_to : Option String := none
  rationale : List String := []
deriving Repr, DecidableEq

/-- `class Game(BaseModel)` from `main.py`, with the declared field
defaults (optional fields `None`, `notes=[]`). -/
structure Game where
  id : String
  league : String
  home : String
  away : String
  kickoff_at : String
  market_spread : Option String := none
  market_total : Option Rat := none
  fair_spread : Option Rat := none
  fair_total : Option Rat := none
  weather : Option String := none
  notes : List String := []
deriving Repr, DecidableEq

/-- A Python `dict[str, α]` as an insertion-ordered association list. -/
abbrev StrMap (α : Type) := List (String × α)

/-- `m[k]` lookup: first (and, for maps built by `dictInsert`, only)
entry with key `k`. -/
def dictLookup (m : StrMap α) (k : String) : Option α :=
  match m with
  | [] => none
  | (k', v) :: rest => if k = k' then some v else dictLookup rest k

/-- `m[k] = v`: replace the value in place if `k` is present, else
append the new entry at the end (Python `dict` assignment). -/
def dictInsert (m : StrMap α) (k : String) (v : α) : StrMap α :=
  match m with
  | [] => [(k, v)]
  | (k', v') :: rest =>
      if k' = k then (k, v) :: rest else (k', v') :: dictInsert rest k v

/-- `len(m)`. -/
def dictSize (m : StrMap α) : Nat := m.length

/-- `list(m.values())`. -/
def dictValues (m : StrMap α) : List α := m.map Prod.snd

/-- `list(m.keys())`. -/
def dictKeys (m : StrMap α) : List String := m.map Prod.fst

/-- A batch of upserts: `for x in l: m[idf x] = x`. -/
def dictUpsertAll (idf : α → String) (m : StrMap α) (l : List α) : StrMap α :=
  l.foldl (fun m x => dictInsert m (idf x) x) m

/-- The last element of `l` whose id is `k`, if any ("later entries in
the same batch with a duplicate id win"). -/
def lastWith (idf : α → String) (l : List α) (k : String) : Option α :=
  l.foldl (fun acc x => if idf x = k then some x else acc) none

/-- The two process-wide mappings of `main.py`. -/
structure AppState where
  GAMES : StrMap Game
  PICKS : StrMap Pick
deriving Repr, DecidableEq

/-- Both mappings start empty at process start. -/
def initState : AppState := { GAMES := [], PICKS := [] }

/-- `CRON_SECRET = os.getenv("CRON_SECRET", "change-me")`: the
configured secret as a function of the environment variable's value. -/
def CRON_SECRET (env : Option String) : String := env.getD "change-me"

/-- Response shape of `GET /health`. -/
structure HealthResp where
  ok : Bool
  picks : Nat
  games : Nat
deriving Repr, DecidableEq

/-- Response shape of a successful `POST /ingest/upsert`. -/
structure UpsertResp where
  ok : Bool
  games : Nat
  picks : Nat
deriving Repr, DecidableEq

/-- `HTTPException(status, detail)` as raised by `ingest_upsert`. -/
structure HTTPException where
  status : Nat
  detail : String
deriving Repr, DecidableEq

/-- `GET /health`: returns the counts; touches no state. -/
def health (s : AppState) : HealthResp × AppState :=
  ({ ok := true, picks := dictSize s.PICKS, games := dictSize s.GAMES }, s)

/-- `GET /picks/today`: returns `list(PICKS.values())`; touches no state. -/
def picks_today (s : AppState) : List Pick × AppState :=
  (dictValues s.PICKS, s)

/-- `GET /games/today`: returns `list(GAMES.values())`; touches no state. -/
def games_today (s : AppState) : List Game × AppState :=
  (dictValues s.GAMES, s)

/-- `class UpsertPayload(BaseModel)`: both sequences default to empty. -/
structure UpsertPayload where
  games : List Game := []
  picks : List Pick := []
deriving Repr, DecidableEq

/-- `POST /ingest/upsert`.  `cron_secret` is the configured
`CRON_SECRET` value; `x_cron_secret` is the request's `X-Cron-Secret`
header (`none` when absent).  On mismatch raises 401 before any write;
otherwise writes all games, then all picks, and returns the resulting
totals. -/
def ingest_upsert (cron_secret : String) (payload : UpsertPayload)
    (x_cron_secret : Option String) (s : AppState) :
    Except HTTPException (UpsertResp × AppState) :=
  if x_cron_secret ≠ some cron_secret then
    .error { status := 401, detail := "invalid secret" }
  else
    let s' : AppState :=
      { GAMES := dictUpsertAll Game.id s.GAMES payload.games
        PICKS := dictUpsertAll Pick.id s.PICKS payload.picks }
    .ok ({ ok := true, games := dictSize s'.GAMES, picks := dictSize s'.PICKS }, s')

/-- The state after an `ingest_upsert` call: a raised `HTTPException`
leaves the process's global mappings untouched. -/
def upsertState (cron_secret : String) (payload : UpsertPayload)
    (x_cron_secret : Option String) (s : AppState) : AppState :=
  match ingest_upsert cron_secret payload x_cron_secret s with
  | .ok (_, s') => s'
  | .error _ => s

/-- States reachable from process start under a fixed configured
secret: the read handlers never change state, so the only state
transitions are `ingest_upsert` calls (with arbitrary header). -/
inductive Reachable (cron_secret : String) : AppState → Prop
  | init : Reachable cron_secret initState
  | step (payload : UpsertPayload) (hdr : Option String) (s : AppState) :
      Reachable cron_secret s →
      Reachable cron_secret (upsertState cron_secret payload hdr s)

/-- Well-formedness of a mapping: keys are distinct and every stored
record's id field equals its key. -/
def dictInv (idf : α → String) (m : StrMap α) : Prop :=
  (dictKeys m).Nodup ∧ ∀ kv ∈ m, idf kv.2 = kv.1

/-- Replaying a whole history of authorized upserts from a given state. -/
def runUpserts (cron_secret : String) (ps : List UpsertPayload)
    (s : AppState) : AppState :=
  ps.foldl (fun s p => upsertState cron_secret p (some cron_secret) s) s

/-- All Game records submitted across a history, in submission order. -/
def allGames (ps : List UpsertPayload) : List Game :=
  (ps.map UpsertPayload.games).flatten

/-- All Pick records submitted across a history, in submission order. -/
def allPicks (ps : List UpsertPayload) : List Pick :=
  (ps.map UpsertPayload.picks).flatten

/-- A concrete Pick, the `p1` record of the spec's overwrite scenario. -/
def samplePick : Pick :=
  { id := "p1", league := "NFL", game_id := "g1", market := "spread",
    selection := "home", hit_prob := 7/10 }

/-- A concrete payload carrying just `samplePick`. -/
def samplePayload : UpsertPayload := { games := [], picks := [samplePick] }

/-! ## Lemmas about the dictionary embedding -/

theorem dictLookup_insert (m : StrMap α) (k k' : String) (v : α) :
    dictLookup (dictInsert m k v) k' = if k' = k then some v else dictLookup m k' := by
  induction m with
  | nil => simp [dictInsert, dictLookup]
  | cons hd tl ih =>
      obtain ⟨k₀, v₀⟩ := hd
      by_cases hk : k₀ = k
      · subst hk
        by_cases hk' : k' = k₀ <;> simp [dictInsert, dictLookup, hk']
      · by_cases hk' : k' = k₀
        · subst hk'
          simp [dictInsert, dictLookup, hk, Ne.symm hk]
        · simp [dictInsert, dictLookup, hk, hk', ih]

theorem dictSize_insert (m : StrMap α) (k : String) (v : α) :
    dictSize (dictInsert m k v) =
      if (dictLookup m k).isSome then dictSize m else dictSize m + 1 := by
  induction m with
  | nil => simp [dictInsert, dictLookup, dictSize]
  | cons hd tl ih =>
      obtain ⟨k₀, v₀⟩ := hd
      by_cases hk : k₀ = k
      · subst hk
        simp [dictInsert, dictLookup, dictSize]
      · simp [dictInsert, dictLookup, dictSize, hk, Ne.symm hk] at ih ⊢
        by_cases hs : (dictLookup tl k).isSome = true <;> simp [hs] at ih ⊢ <;> omega

theorem dictKeys_insert (m : StrMap α) (k : String) (v : α) :
    dictKeys (dictInsert m k v) =
      if k ∈ dictKeys m then dictKeys m else dictKeys m ++ [k] := by
  induction m with
  | nil => simp [dictInsert, dictKeys]
  | cons hd tl ih =>
      obtain ⟨k₀, v₀⟩ := hd
      by_cases hk : k₀ = k
      · subst hk
        simp [dictInsert, dictKeys]
      · simp only [dictInsert, dictKeys, List.map_cons, if_neg hk] at ih ⊢
        rw [ih]
        by_cases hmem : k ∈ List.map Prod.fst tl <;>
          simp [hmem, Ne.symm hk]

theorem dictKeys_insert_nodup (m : StrMap α) (k : String) (v : α)
    (h : (dictKeys m).Nodup) : (dictKeys (dictInsert m k v)).Nodup := by
  rw [dictKeys_insert]
  by_cases hmem : k ∈ dictKeys m
  · simpa [hmem] using h
  · rw [if_neg hmem]
    simp [List.nodup_append, h, hmem]

theorem dictInsert_mem (m : StrMap α) (k : String) (v : α) (kv : String × α)
    (h : kv ∈ dictInsert m k v) : kv = (k, v) ∨ kv ∈ m := by
  induction m with
  | nil => simpa [dictInsert] using h
  | cons hd tl ih =>
      obtain ⟨k₀, v₀⟩ := hd
      by_cases hk : k₀ = k
      · subst hk
        rcases (by simpa [dictInsert] using h) with h' | h'
        · exact Or.inl h'
        · exact Or.inr (List.mem_cons_of_mem _ h')
      · rcases (by simpa [dictInsert, hk] using h) with h' | h'
        · exact Or.inr (by simp [h'])
        · rcases ih h' with h'' | h''
          · exact Or.inl h''
          · exact Or.inr (List.mem_cons_of_mem _ h'')

theorem dictInv_insert (idf : α → String) (m : StrMap α) (v : α)
    (h : dictInv idf m) : dictInv idf (dictInsert m (idf v) v) := by
  refine ⟨dictKeys_insert_nodup _ _ _ h.1, ?_⟩
  intro kv hkv
  rcases dictInsert_mem _ _ _ _ hkv with h' | h'
  · subst h'; rfl
  · exact h.2 kv h'

theorem dictInv_upsertAll (idf : α → String) (m : StrMap α) (l : List α)
    (h : dictInv idf m) : dictInv idf (dictUpsertAll idf m l) := by
  induction l generalizing m with
  | nil => simpa [dictUpsertAll] using h
  | cons x l ih =>
      simpa [dictUpsertAll] using ih _ (dictInv_insert idf m x h)

theorem lastWith_go (idf : α → String) (l : List α) (k : String)
    (acc : Option α) :
    l.foldl (fun acc x => if idf x = k then some x else acc) acc =
      (lastWith idf l k).or acc := by
  induction l generalizing acc with
  | nil => simp [lastWith]
  | cons x l ih =>
      show l.foldl _ (if idf x = k then some x else acc) = _
      rw [ih]
      have hx : lastWith idf (x :: l) k =
          (lastWith idf l k).or (if idf x = k then some x else none) := by
        show l.foldl _ (if idf x = k then some x else none) = _
        rw [ih]
      rw [hx, Option.or_assoc]
      by_cases h : idf x = k <;> simp [h]

theorem lastWith_append (idf : α → String) (l₁ l₂ : List α) (k : String) :
    lastWith idf (l₁ ++ l₂) k = (lastWith idf l₂ k).or (lastWith idf l₁ k) := by
  show (l₁ ++ l₂).foldl _ none = _
  rw [List.foldl_append, lastWith_go]
  rfl

theorem dictLookup_upsertAll (idf : α → String) (l : List α) (m : StrMap α)
    (k : String) :
    dictLookup (dictUpsertAll idf m l) k =
      (lastWith idf l k).or (dictLookup m k) := by
  induction l generalizing m with
  | nil => simp [dictUpsertAll, lastWith]
  | cons x l ih =>
      show dictLookup (dictUpsertAll idf (dictInsert m (idf x) x) l) k = _
      rw [ih, dictLookup_insert]
      have hx : lastWith idf (x :: l) k =
          (lastWith idf l k).or (if idf x = k then some x else none) :=
        lastWith_go idf l k _
      rw [hx, Option.or_assoc]
      by_cases h : idf x = k
      · simp [h]
      · have hk : ¬k = idf x := fun hkx => h hkx.symm
        simp [h, hk]

theorem dictLookup_mem (m : StrMap α) (k : String) (v : α)
    (h : dictLookup m k = some v) : (k, v) ∈ m := by
  induction m with
  | nil => simp [dictLookup] at h
  | cons hd tl ih =>
      obtain ⟨k₀, v₀⟩ := hd
      by_cases hk : k = k₀
      · subst hk
        simp [dictLookup] at h
        simp [h]
      · simp [dictLookup, hk] at h
        exact List.mem_cons_of_mem _ (ih h)

theorem dictLookup_values_mem (m : StrMap α) (k : String) (v : α)
    (h : dictLookup m k = some v) : v ∈ dictValues m := by
  have := dictLookup_mem m k v h
  exact List.mem_map.mpr ⟨(k, v), this, rfl⟩

theorem mem_dictLookup_of_nodup (m : StrMap α) (k : String) (v : α)
    (hnd : (dictKeys m).Nodup) (h : (k, v) ∈ m) : dictLookup m k = some v := by
  induction m with
  | nil => simp at h
  | cons hd tl ih =>
      obtain ⟨k₀, v₀⟩ := hd
      have hcons : dictKeys ((k₀, v₀) :: tl) = k₀ :: dictKeys tl := rfl
      rw [hcons] at hnd
      have hk₀ : k₀ ∉ dictKeys tl := (List.nodup_cons.mp hnd).1
      have hnd' : (dictKeys tl).Nodup := (List.nodup_cons.mp hnd).2
      rcases List.mem_cons.mp h with h' | h'
      · injection h' with h1 h2
        subst h1; subst h2
        simp [dictLookup]
      · have hk : ¬k = k₀ := by
          rintro rfl
          exact hk₀ (List.mem_map.mpr ⟨(k, v), h', rfl⟩)
        simpa [dictLookup, hk] using ih hnd' h'

theorem dictValues_mem_lookup (idf : α → String) (m : StrMap α) (v : α)
    (hinv : dictInv idf m) (h : v ∈ dictValues m) :
    dictLookup m (idf v) = some v := by
  obtain ⟨⟨k, v'⟩, hmem, rfl⟩ := List.mem_map.mp h
  have hk : idf v' = k := hinv.2 (k, v') hmem
  show dictLookup m (idf v') = some v'
  rw [hk]
  exact mem_dictLookup_of_nodup m k v' hinv.1 hmem

theorem dictValues_pairwise_ids (idf : α → String) (m : StrMap α)
    (hinv : dictInv idf m) :
    (dictValues m).Pairwise (fun a b => idf a ≠ idf b) := by
  induction m with
  | nil => simp [dictValues]
  | cons hd tl ih =>
      obtain ⟨k₀, v₀⟩ := hd
      have hcons : dictKeys ((k₀, v₀) :: tl) = k₀ :: dictKeys tl := rfl
      have hnd := hinv.1
      rw [hcons] at hnd
      have hhead : k₀ ∉ dictKeys tl := (List.nodup_cons.mp hnd).1
      have htl : dictInv idf tl :=
        ⟨(List.nodup_cons.mp hnd).2,
         fun kv hkv => hinv.2 kv (List.mem_cons_of_mem _ hkv)⟩
      have hid : idf v₀ = k₀ := hinv.2 (k₀, v₀) (List.mem_cons_self _ _)
      show (v₀ :: dictValues tl).Pairwise (fun a b => idf a ≠ idf b)
      refine List.Pairwise.cons ?_ (ih htl)
      intro b hb
      obtain ⟨⟨k₁, v₁⟩, hmem, rfl⟩ := List.mem_map.mp hb
      have h1 : idf v₁ = k₁ := htl.2 (k₁, v₁) hmem
      show idf v₀ ≠ idf v₁
      rw [hid, h1]
      rintro rfl
      exact hhead (List.mem_map.mpr ⟨(k₀, v₁), hmem, rfl⟩)

theorem countP_ids_le_one (idf : α → String) (l : List α)
    (h : l.Pairwise (fun a b => idf a ≠ idf b)) (k : String) :
    l.countP (fun x => idf x == k) ≤ 1 := by
  induction l with
  | nil => simp
  | cons x l ih =>
      have hx := List.pairwise_cons.mp h
      rw [List.countP_cons]
      by_cases hk : idf x = k
      · have hzero : l.countP (fun x => idf x == k) = 0 := by
          rw [List.countP_eq_zero]
          intro b hb
          simp only [beq_iff_eq]
          intro hbk
          exact hx.1 b hb (by rw [hk, hbk])
        simp [hk, hzero]
      · simpa [hk] using ih hx.2

/-! ## Derived descriptions of the handlers -/

theorem upsertState_auth (cron_secret : String) (payload : UpsertPayload)
    (s : AppState) :
    upsertState cron_secret payload (some cron_secret) s =
      { GAMES := dictUpsertAll Game.id s.GAMES payload.games
        PICKS := dictUpsertAll Pick.id s.PICKS payload.picks } := by
  simp [upsertState, ingest_upsert]

theorem upsertState_unauth (cron_secret : String) (payload : UpsertPayload)
    (hdr : Option String) (s : AppState) (h : hdr ≠ some cron_secret) :
    upsertState cron_secret payload hdr s = s := by
  simp [upsertState, ingest_upsert, h]

theorem reachable_dictInv (cron_secret : String) (s : AppState)
    (h : Reachable cron_secret s) :
    dictInv Game.id s.GAMES ∧ dictInv Pick.id s.PICKS := by
  induction h with
  | init =>
      exact ⟨⟨List.nodup_nil, by simp [initState]⟩,
             ⟨List.nodup_nil, by simp [initState]⟩⟩
  | step payload hdr s hs ih =>
      by_cases hh : hdr = some cron_secret
      · subst hh
        rw [upsertState_auth]
        exact ⟨dictInv_upsertAll _ _ _ ih.1, dictInv_upsertAll _ _ _ ih.2⟩
      · rw [upsertState_unauth _ _ _ _ hh]
        exact ih

theorem runUpserts_games_lookup (cron_secret : String) (ps : List UpsertPayload)
    (k : String) : ∀ s : AppState,
    dictLookup (runUpserts cron_secret ps s).GAMES k =
      (lastWith Game.id (allGames ps) k).or (dictLookup s.GAMES k) := by
  induction ps with
  | nil => intro s; simp [runUpserts, allGames, lastWith]
  | cons p ps ih =>
      intro s
      show dictLookup (runUpserts cron_secret ps
        (upsertState cron_secret p (some cron_secret) s)).GAMES k = _
      rw [ih, upsertState_auth]
      show (lastWith Game.id (allGames ps) k).or
        (dictLookup (dictUpsertAll Game.id s.GAMES p.games) k) = _
      rw [dictLookup_upsertAll]
      have hall : allGames (p :: ps) = p.games ++ allGames ps := by
        simp [allGames]
      rw [hall, lastWith_append, Option.or_assoc]

theorem runUpserts_picks_lookup (cron_secret : String) (ps : List UpsertPayload)
    (k : String) : ∀ s : AppState,
    dictLookup (runUpserts cron_secret ps s).PICKS k =
      (lastWith Pick.id (allPicks ps) k).or (dictLookup s.PICKS k) := by
  induction ps with
  | nil => intro s; simp [runUpserts, allPicks, lastWith]
  | cons p ps ih =>
      intro s
      show dictLookup (runUpserts cron_secret ps
        (upsertState cron_secret p (some cron_secret) s)).PICKS k = _
      rw [ih, upsertState_auth]
      show (lastWith Pick.id (allPicks ps) k).or
        (dictLookup (dictUpsertAll Pick.id s.PICKS p.picks) k) = _
      rw [dictLookup_upsertAll]
      have hall : allPicks (p :: ps) = p.picks ++ allPicks ps := by
        simp [allPicks]
      rw [hall, lastWith_append, Option.or_assoc]

/-! ## The claims -/

/-- C1: an authorized upsert (header equals the configured secret)
writes every Game of the payload into the games mapping keyed by id and
every Pick into the picks mapping keyed by id, a later entry with a
duplicate id within the batch winning and existing records being
overwritten; it returns `ok = true` together with the total sizes of
the two mappings after the batch. -/
theorem upsert_authorized_spec (cron_secret : String)
    (payload : UpsertPayload) (s : AppState) :
    ∃ s' : AppState,
      ingest_upsert cron_secret payload (some cron_secret) s =
        .ok ({ ok := true, games := dictSize s'.GAMES,
               picks := dictSize s'.PICKS }, s') ∧
      (∀ k, dictLookup s'.GAMES k =
        (lastWith Game.id payload.games k).or (dictLookup s.GAMES k)) ∧
      (∀ k, dictLookup s'.PICKS k =
        (lastWith Pick.id payload.picks k).or (dictLookup s.PICKS k)) := by
  refine ⟨{ GAMES := dictUpsertAll Game.id s.GAMES payload.games
            PICKS := dictUpsertAll Pick.id s.PICKS payload.picks },
          ?_, ?_, ?_⟩
  · simp [ingest_upsert]
  · intro k; exact dictLookup_upsertAll _ _ _ _
  · intro k; exact dictLookup_upsertAll _ _ _ _

/-- C2: an upsert whose `X-Cron-Secret` header is missing or different
from the configured secret fails with HTTP 401 "invalid secret" and
performs no mutation: the state after the call is the state before, so
subsequent list-picks and list-games results are unchanged; and the
configured secret defaults to `"change-me"` when the environment
variable is unset. -/
theorem upsert_unauthorized_spec (cron_secret : String)
    (hdr : Option String) (payload : UpsertPayload) (s : AppState)
    (h : hdr ≠ some cron_secret) :
    ingest_upsert cron_secret payload hdr s =
        .error { status := 401, detail := "invalid secret" } ∧
      upsertState cron_secret payload hdr s = s ∧
      picks_today (upsertState cron_secret payload hdr s) = picks_today s ∧
      games_today (upsertState cron_secret payload hdr s) = games_today s ∧
      CRON_SECRET none = "change-me" := by
  refine ⟨by simp [ingest_upsert, h], upsertState_unauth _ _ _ _ h, ?_, ?_, rfl⟩
  · rw [upsertState_unauth _ _ _ _ h]
  · rw [upsertState_unauth _ _ _ _ h]

/-- Witness for C2 at a concrete input: a missing header on the default
secret is rejected. -/
theorem upsert_unauthorized_spec_witness :
    (none : Option String) ≠ some "change-me" ∧
      ingest_upsert "change-me" {} none initState =
        .error { status := 401, detail := "invalid secret" } := by
  refine ⟨by decide, ?_⟩
  exact (upsert_unauthorized_spec "change-me" none {} initState (by decide)).1

/-- C3: across any history of authorized upserts from the empty initial
state, each mapping holds, per id, exactly the last record submitted
with that id (full replacement, no merge), and submitting the same
payload twice yields the same mapping contents as submitting it once. -/
theorem upsert_history_last_write_wins (cron_secret : String)
    (ps : List UpsertPayload) (payload : UpsertPayload) (s : AppState) :
    (∀ k, dictLookup (runUpserts cron_secret ps initState).GAMES k =
        lastWith Game.id (allGames ps) k) ∧
    (∀ k, dictLookup (runUpserts cron_secret ps initState).PICKS k =
        lastWith Pick.id (allPicks ps) k) ∧
    (∀ k, dictLookup (upsertState cron_secret payload (some cron_secret)
            (upsertState cron_secret payload (some cron_secret) s)).GAMES k =
          dictLookup (upsertState cron_secret payload (some cron_secret) s).GAMES k) ∧
    (∀ k, dictLookup (upsertState cron_secret payload (some cron_secret)
            (upsertState cron_secret payload (some cron_secret) s)).PICKS k =
          dictLookup (upsertState cron_secret payload (some cron_secret) s).PICKS k) := by
  refine ⟨?_, ?_, ?_, ?_⟩
  · intro k
    rw [runUpserts_games_lookup]
    simp [initState, dictLookup]
  · intro k
    rw [runUpserts_picks_lookup]
    simp [initState, dictLookup]
  · intro k
    rw [upsertState_auth, upsertState_auth]
    show dictLookup (dictUpsertAll Game.id
      (dictUpsertAll Game.id s.GAMES payload.games) payload.games) k =
      dictLookup (dictUpsertAll Game.id s.GAMES payload.games) k
    rw [dictLookup_upsertAll, dictLookup_upsertAll, ← Option.or_assoc,
      Option.or_self]
  · intro k
    rw [upsertState_auth, upsertState_auth]
    show dictLookup (dictUpsertAll Pick.id
      (dictUpsertAll Pick.id s.PICKS payload.picks) payload.picks) k =
      dictLookup (dictUpsertAll Pick.id s.PICKS payload.picks) k
    rw [dictLookup_upsertAll, dictLookup_upsertAll, ← Option.or_assoc,
      Option.or_self]

/-- C4: round-trip — a Pick (resp. Game) submitted in an authorized
upsert (the last of its id within the batch) is itself returned by the
corresponding list endpoint, every field equal to the submitted value;
and a Pick or Game built from only its required fields carries exactly
the declared defaults: `tier = "A"`, `hit_prob = 0.55`, the optional
fields absent and `rationale = []` (resp. `notes = []`). -/
theorem upsert_roundtrip (cron_secret : String) (payload : UpsertPayload)
    (s : AppState) :
    (∀ p : Pick, lastWith Pick.id payload.picks p.id = some p →
      p ∈ (picks_today (upsertState cron_secret payload (some cron_secret) s)).1) ∧
    (∀ g : Game, lastWith Game.id payload.games g.id = some g →
      g ∈ (games_today (upsertState cron_secret payload (some cron_secret) s)).1) ∧
    (∀ i lg gi mk sel,
      ({ id := i, league := lg, game_id := gi, market := mk,
         selection := sel } : Pick) =
      { id := i, league := lg, game_id := gi, market := mk, selection := sel,
        posted_line := none, posted_odds := none, tier := "A",
        hit_prob := 11/20, play_to := none, rationale := [] }) ∧
    (∀ i lg hm aw ko,
      ({ id := i, league := lg, home := hm, away := aw,
         kickoff_at := ko } : Game) =
      { id := i, league := lg, home := hm, away := aw, kickoff_at := ko,
        market_spread := none, market_total := none, fair_spread := none,
        fair_total := none, weather := none, notes := [] }) := by
  refine ⟨?_, ?_, fun _ _ _ _ _ => rfl, fun _ _ _ _ _ => rfl⟩
  · intro p hp
    rw [upsertState_auth]
    apply dictLookup_values_mem _ p.id
    rw [dictLookup_upsertAll, hp]
    rfl
  · intro g hg
    rw [upsertState_auth]
    apply dictLookup_values_mem _ g.id
    rw [dictLookup_upsertAll, hg]
    rfl

/-- Witness for C4 at a concrete input: the pick `p1` with
`hit_prob = 0.7` submitted alone comes back from list-picks. -/
theorem upsert_roundtrip_witness :
    lastWith Pick.id samplePayload.picks samplePick.id = some samplePick ∧
    samplePick ∈ (picks_today (upsertState "change-me" samplePayload
      (some "change-me") initState)).1 := by
  have hlast : lastWith Pick.id samplePayload.picks samplePick.id =
      some samplePick := by
    simp [samplePayload, lastWith]
  refine ⟨hlast, ?_⟩
  exact (upsert_roundtrip "change-me" samplePayload initState).1 samplePick hlast

/-- C5: the health check is a pure read with no failure mode: it leaves
the state unchanged and reports `ok = true` together with the current
sizes of the picks and games mappings; on the empty initial state it
reports `{ok := true, picks := 0, games := 0}`. -/
theorem health_spec (s : AppState) :
    health s = ({ ok := true, picks := dictSize s.PICKS,
                  games := dictSize s.GAMES }, s) ∧
    health initState = ({ ok := true, picks := 0, games := 0 }, initState) :=
  ⟨rfl, rfl⟩

/-- C6: on every reachable state, list-picks returns exactly the
records stored in the picks mapping and list-games those of the games
mapping — a record is in the output iff it is stored under its id, and
each appears exactly once; on the empty initial state both return the
empty sequence. -/
theorem list_endpoints_spec (cron_secret : String) (s : AppState)
    (h : Reachable cron_secret s) :
    (picks_today s).1 = dictValues s.PICKS ∧
    (games_today s).1 = dictValues s.GAMES ∧
    (∀ p : Pick, p ∈ (picks_today s).1 ↔ dictLookup s.PICKS p.id = some p) ∧
    (∀ g : Game, g ∈ (games_today s).1 ↔ dictLookup s.GAMES g.id = some g) ∧
    (∀ p : Pick, p ∈ (picks_today s).1 → (picks_today s).1.count p = 1) ∧
    (∀ g : Game, g ∈ (games_today s).1 → (games_today s).1.count g = 1) ∧
    (picks_today initState).1 = [] ∧ (games_today initState).1 = [] := by
  obtain ⟨hg, hp⟩ := reachable_dictInv cron_secret s h
  have hpnd : (dictValues s.PICKS).Nodup :=
    (dictValues_pairwise_ids Pick.id s.PICKS hp).imp
      (fun hne heq => hne (by rw [heq]))
  have hgnd : (dictValues s.GAMES).Nodup :=
    (dictValues_pairwise_ids Game.id s.GAMES hg).imp
      (fun hne heq => hne (by rw [heq]))
  refine ⟨rfl, rfl, ?_, ?_, ?_, ?_, rfl, rfl⟩
  · intro p
    exact ⟨fun hmem => dictValues_mem_lookup Pick.id s.PICKS p hp hmem,
           fun hl => dictLookup_values_mem s.PICKS p.id p hl⟩
  · intro g
    exact ⟨fun hmem => dictValues_mem_lookup Game.id s.GAMES g hg hmem,
           fun hl => dictLookup_values_mem s.GAMES g.id g hl⟩
  · intro p hmem
    exact List.count_eq_one_of_mem hpnd hmem
  · intro g hmem
    exact List.count_eq_one_of_mem hgnd hmem

/-- Witness for C6 at the initial state (reachable by construction):
both list endpoints return the empty sequence. -/
theorem list_endpoints_spec_witness :
    (picks_today initState).1 = [] ∧ (games_today initState).1 = [] := by
  have h := list_endpoints_spec "change-me" initState Reachable.init
  exact ⟨h.2.2.2.2.2.2.1, h.2.2.2.2.2.2.2⟩

/-- C7: invariant of every reachable state — each mapping is
well-formed (distinct keys, and every stored record's id equals its
key), so each mapping holds at most one record per id and a list
endpoint never returns two records with the same id. -/
theorem id_uniqueness_invariant (cron_secret : String) (s : AppState)
    (h : Reachable cron_secret s) :
    dictInv Game.id s.GAMES ∧ dictInv Pick.id s.PICKS ∧
    (∀ k, (picks_today s).1.countP (fun p => p.id == k) ≤ 1) ∧
    (∀ k, (games_today s).1.countP (fun g => g.id == k) ≤ 1) := by
  obtain ⟨hg, hp⟩ := reachable_dictInv cron_secret s h
  refine ⟨hg, hp, ?_, ?_⟩
  · intro k
    exact countP_ids_le_one Pick.id _ (dictValues_pairwise_ids Pick.id s.PICKS hp) k
  · intro k
    exact countP_ids_le_one Game.id _ (dictValues_pairwise_ids Game.id s.GAMES hg) k

/-- Witness for C7 at the initial state: the invariant holds there. -/
theorem id_uniqueness_invariant_witness :
    dictInv Game.id initState.GAMES ∧ dictInv Pick.id initState.PICKS :=
  let h := id_uniqueness_invariant "change-me" initState Reachable.init
  ⟨h.1, h.2.1⟩

/-- C8: `hit_prob` is unconstrained (as is `posted_odds`): an
authorized upsert of any Pick whatsoever — any `hit_prob` value,
including values outside `[0, 1]`, and any `posted_odds` — succeeds,
and the stored Pick equals the submitted one verbatim. -/
theorem hit_prob_unconstrained (cron_secret : String) (s : AppState)
    (p : Pick) :
    ∃ (r : UpsertResp) (s' : AppState),
      ingest_upsert cron_secret { games := [], picks := [p] }
          (some cron_secret) s = .ok (r, s') ∧
      r.ok = true ∧ dictLookup s'.PICKS p.id = some p := by
  refine ⟨{ ok := true,
            games := dictSize (dictUpsertAll Game.id s.GAMES []),
            picks := dictSize (dictUpsertAll Pick.id s.PICKS [p]) },
          { GAMES := dictUpsertAll Game.id s.GAMES []
            PICKS := dictUpsertAll Pick.id s.PICKS [p] }, ?_, rfl, ?_⟩
  · simp [ingest_upsert]
  · show dictLookup (dictUpsertAll Pick.id s.PICKS [p]) p.id = some p
    rw [dictLookup_upsertAll]
    simp [lastWith]

/-- C9: the list endpoints are pure reads — they return the state
unchanged, so any subsequent call observes exactly the same results. -/
theorem list_endpoints_frame (s : AppState) :
    (picks_today s).2 = s ∧ (games_today s).2 = s ∧
    health (picks_today s).2 = health s ∧
    picks_today (games_today s).2 = picks_today s ∧
    games_today (picks_today s).2 = games_today s :=
  ⟨rfl, rfl, rfl, rfl, rfl⟩

/-- C10: an authorized upsert with both sequences empty leaves the
state exactly as it was and returns `ok = true` with the current
(unchanged) totals. -/
theorem upsert_empty_payload (cron_secret : String) (s : AppState) :
    ingest_upsert cron_secret { games := [], picks := [] }
        (some cron_secret) s =
      .ok ({ ok := true, games := dictSize s.GAMES,
             picks := dictSize s.PICKS }, s) := by
  simp [ingest_upsert, dictUpsertAll]

end LockBox
